import Mathlib

/-!
Verification of the COOR pipeline
(src/COOR_Codon_Optimization_using_Ordered_Reshuffling.ipynb).

The notebook is a straight-line script; we embed its three computational
parts over sequences modelled as lists of characters:

* Step 1's validation function `is_valid_dna`;
* Step 2's translation (Biopython's Seq.translate with the standard codon
  table, modelled from the spec since the library is external);
* Steps 3-4's codon-database builder (`buildGo` / `codonUsageRecorder`);
* Step 6's target validation together with Step 7's cyclic reconstruction
  (`cyclicEncoder`), with the Python `defaultdict` behaviour of
  `codon_db[aa]` (a read of a missing key inserts an empty list, and the
  subsequent `% 0` raises ZeroDivisionError) embedded faithfully.

Python dictionaries preserve insertion order and have unique keys, so
`codon_db` is modelled as an insertion-ordered association list; the
`usage_tracker : defaultdict(int)` is modelled as a total function
`Char → Nat` with default 0, which is exactly its read/write semantics.
Fallible steps return `Option` / `Except`: `none` or `Except.error` stands
for an uncaught Python exception or a rejected input (the notebook's
re-prompt loops are the I/O boundary; per the design they are modelled as
validation returning failure).
-/

/-- A codon: in the notebook, a 3-character slice `dna[i:i+3]` of the DNA
string. -/
abbrev Codon := List Char

/-- The codon database of Steps 3-4 (`codon_db = defaultdict(list)`),
modelled as an insertion-ordered association list from amino-acid
character to the list of codons recorded for it. -/
abbrev CodonDB := List (Char × List Codon)

/-- Dictionary lookup: `codon_db[aa]` when `aa` is a key, `none` when it
is absent. -/
def dbLookup : CodonDB → Char → Option (List Codon)
  | [], _ => none
  | (k, v) :: rest, a => if a = k then some v else dbLookup rest a

/-- Membership test `aa in codon_db` (Python `in` does not insert). -/
def dbContains (db : CodonDB) (a : Char) : Bool :=
  (dbLookup db a).isSome

/-- The value read by the defaultdict access `codon_db[aa]`: the stored
list when the key is present, the fresh default `[]` when it is absent. -/
def dbValue (db : CodonDB) (a : Char) : List Codon :=
  (dbLookup db a).getD []

/-- The side effect of the defaultdict access `codon_db[aa]`: a read of a
missing key inserts that key with the default empty list (at the end, in
insertion order); a read of a present key changes nothing. -/
def dbTouch (db : CodonDB) (a : Char) : CodonDB :=
  if dbContains db a then db else db ++ [(a, [])]

/-- The builder's update `codon_db[aa].append(codon)`: append to the list
of a present key in place, or create the key at the end with a
one-element list (defaultdict creates `[]`, then `append` runs). -/
def dbAppend : CodonDB → Char → Codon → CodonDB
  | [], a, c => [(a, [c])]
  | (k, v) :: rest, a, c =>
      if a = k then (k, v ++ [c]) :: rest else (k, v) :: dbAppend rest a c

/-- Total number of codon entries in the database, summed across keys. -/
def dbSize (db : CodonDB) : Nat :=
  (db.map fun p => p.2.length).sum

/-- The data-model invariant of a codon-usage mapping: every stored list
is non-empty and every stored codon has exactly 3 characters. -/
def dbWellFormed (db : CodonDB) : Bool :=
  db.all fun p => (!p.2.isEmpty) && p.2.all fun c => c.length == 3

/-- Folding a list of (amino acid, codon) pairs into a database with
`dbAppend`; the reference side of the Steps 3-4 loop. -/
def buildList (db : CodonDB) (pairs : List (Char × Codon)) : CodonDB :=
  pairs.foldl (fun d p => dbAppend d p.1 p.2) db

/-- The codons attached to key `x` by a list of (amino acid, codon)
pairs: the subsequence of codons paired with `x`, in order, duplicates
retained. -/
def codonsFor (pairs : List (Char × Codon)) (x : Char) : List Codon :=
  (pairs.filter fun p => p.1 == x).map fun p => p.2

/-- Splitting a sequence into consecutive 3-character slices, exactly as
the notebook's loops `for i in range(0, len(dna), 3)` walk it. -/
def chunks3 (l : List Char) : List (List Char) :=
  if h : l = [] then []
  else l.take 3 :: chunks3 (l.drop 3)
termination_by l.length
decreasing_by
  have hpos : 0 < l.length := List.length_pos.mpr h
  simp only [List.length_drop]
  omega

/-- Step 1's validation function, verbatim from the notebook:
`all(base in 'ATGC' for base in seq.upper()) and len(seq) % 3 == 0`. -/
def is_valid_dna (seq : List Char) : Bool :=
  ((seq.map Char.toUpper).all fun b =>
    b == 'A' || b == 'T' || b == 'G' || b == 'C') && seq.length % 3 == 0

/-- A single uppercase nucleotide character. -/
def validBase (b : Char) : Bool :=
  b == 'A' || b == 'T' || b == 'G' || b == 'C'

/-- Modelled from the spec: the standard genetic code table used by Step
2's `Seq(...).translate(to_stop=False)`. The table itself lives in
Biopython (`CodonTable.unambiguous_dna_by_name["Standard"]`), outside this
repository, so its 64 DNA-codon entries are written out here from the
spec's "standard genetic code table", stop codons mapping to the stop
symbol `*`. The catch-all is unreachable for valid codons. -/
def geneticCode : Codon → Char
  | ['T','T','T'] => 'F' | ['T','T','C'] => 'F'
  | ['T','T','A'] => 'L' | ['T','T','G'] => 'L'
  | ['C','T','T'] => 'L' | ['C','T','C'] => 'L'
  | ['C','T','A'] => 'L' | ['C','T','G'] => 'L'
  | ['A','T','T'] => 'I' | ['A','T','C'] => 'I'
  | ['A','T','A'] => 'I' | ['A','T','G'] => 'M'
  | ['G','T','T'] => 'V' | ['G','T','C'] => 'V'
  | ['G','T','A'] => 'V' | ['G','T','G'] => 'V'
  | ['T','C','T'] => 'S' | ['T','C','C'] => 'S'
  | ['T','C','A'] => 'S' | ['T','C','G'] => 'S'
  | ['C','C','T'] => 'P' | ['C','C','C'] => 'P'
  | ['C','C','A'] => 'P' | ['C','C','G'] => 'P'
  | ['A','C','T'] => 'T' | ['A','C','C'] => 'T'
  | ['A','C','A'] => 'T' | ['A','C','G'] => 'T'
  | ['G','C','T'] => 'A' | ['G','C','C'] => 'A'
  | ['G','C','A'] => 'A' | ['G','C','G'] => 'A'
  | ['T','A','T'] => 'Y' | ['T','A','C'] => 'Y'
  | ['T','A','A'] => '*' | ['T','A','G'] => '*'
  | ['C','A','T'] => 'H' | ['C','A','C'] => 'H'
  | ['C','A','A'] => 'Q' | ['C','A','G'] => 'Q'
  | ['A','A','T'] => 'N' | ['A','A','C'] => 'N'
  | ['A','A','A'] => 'K' | ['A','A','G'] => 'K'
  | ['G','A','T'] => 'D' | ['G','A','C'] => 'D'
  | ['G','A','A'] => 'E' | ['G','A','G'] => 'E'
  | ['T','G','T'] => 'C' | ['T','G','C'] => 'C'
  | ['T','G','A'] => '*' | ['T','G','G'] => 'W'
  | ['C','G','T'] => 'R' | ['C','G','C'] => 'R'
  | ['C','G','A'] => 'R' | ['C','G','G'] => 'R'
  | ['A','G','T'] => 'S' | ['A','G','C'] => 'S'
  | ['A','G','A'] => 'R' | ['A','G','G'] => 'R'
  | ['G','G','T'] => 'G' | ['G','G','C'] => 'G'
  | ['G','G','A'] => 'G' | ['G','G','G'] => 'G'
  | _ => 'X'

/-- The error kinds surfaced by the pipeline's fallible operations. The
unknown-amino-acid failure carries the message the notebook prints; the
zero-division constructor stands for Python's ZeroDivisionError raised by
`usage_tracker[aa] % len(codons)` when `codons` is empty. -/
inductive CoorError where
  | invalidSequence : CoorError
  | unknownAminoAcid : String → CoorError
  | zeroDivision : CoorError
deriving DecidableEq

/-- The exact message Step 6 prints when the target contains an
amino acid that is not a key of the database. -/
def step6Message : String :=
  "Error: Some amino acids not found in the database. Re-check or re-input."

/-- Modelled from the spec: the Translator (Step 2's
`Seq(protein1_dna).translate(to_stop=False)`, whose implementation is the
external Biopython library, absent from src/). Per the spec's contract it
rejects a sequence whose length is not a multiple of 3 or that contains a
character outside A,T,G,C with InvalidSequenceError, and otherwise maps
each consecutive non-overlapping triplet through the standard table. -/
def seqTranslate (seq : List Char) : Except CoorError (List Char) :=
  if seq.all validBase && seq.length % 3 == 0 then
    .ok ((chunks3 seq).map geneticCode)
  else .error .invalidSequence

/-- The Steps 3-4 loop
`for i in range(0, len(protein1_dna), 3): codon_db[protein1_aa[i // 3]].append(protein1_dna[i:i+3])`.
The slice `dna[i:i+3]` never fails in Python; the index
`protein1_aa[i // 3]` raises IndexError when out of range, which `none`
models. -/
def buildGo (dna aas : List Char) (db : CodonDB) (i : Nat) : Option CodonDB :=
  if h : i < dna.length then
    match aas[i / 3]? with
    | none => none
    | some aa => buildGo dna aas (dbAppend db aa ((dna.drop i).take 3)) (i + 3)
  else some db
termination_by dna.length - i
decreasing_by omega

/-- The CodonUsageRecorder: Steps 3-4 run on a reference DNA sequence and
its amino-acid sequence, starting from the empty database. -/
def codonUsageRecorder (dna aas : List Char) : Option CodonDB :=
  buildGo dna aas [] 0

/-- The usage cursor `usage_tracker = defaultdict(int)`: semantically a
total map from amino acid to counter with default 0. -/
abbrev Tracker := Char → Nat

/-- The all-zero cursor a reconstruction call starts from. -/
def tracker0 : Tracker := fun _ => 0

/-- The update `usage_tracker[aa] += 1`. -/
def trackerIncr (t : Tracker) (a : Char) : Tracker :=
  fun x => if x = a then t x + 1 else t x

/-- Step 7's reconstruction loop body, threading the database because the
defaultdict read `codons = codon_db[aa]` inserts a missing key (with `[]`)
before `usage_tracker[aa] % len(codons)` raises ZeroDivisionError on it;
`none` models that exception (the loop's partial list is discarded, the
final print never runs). When `len(codons) ≠ 0` the read index
`usage_tracker[aa] % len(codons)` is below `len(codons)`, so the `getD`
default is unreachable and `codons[index]` never fails. -/
def step7Go (db : CodonDB) (t : Tracker) :
    List Char → (Option (List Codon)) × CodonDB
  | [] => (some [], db)
  | aa :: rest =>
    let codons := dbValue db aa
    let db1 := dbTouch db aa
    if codons.length = 0 then (none, db1)
    else
      match step7Go db1 (trackerIncr t aa) rest with
      | (some out, db2) => (some (codons.getD (t aa % codons.length) [] :: out), db2)
      | (none, db2) => (none, db2)

/-- The CyclicEncoder: Step 6's validation
`all(aa in codon_db for aa in protein2)` (its failure, the printed message
and re-prompt, modelled as an error return carrying that message) followed
by Step 7's reconstruction loop. The pair's second component is the
database as left behind by the call. -/
def cyclicEncoder (db : CodonDB) (target : List Char) :
    Except CoorError (List Codon) × CodonDB :=
  if target.all (fun aa => dbContains db aa) then
    match step7Go db tracker0 target with
    | (some out, db2) => (.ok out, db2)
    | (none, db2) => (.error .zeroDivision, db2)
  else (.error (.unknownAminoAcid step6Message), db)

/-- Reference form of the Step 7 loop on a database it never mutates: the
codon emitted for `aa` under cursor `t` is `codons[t aa % len codons]`,
and the cursor advances. Related to `step7Go` by `step7Go_eq_encodeSpec`. -/
def encodeSpec (db : CodonDB) (t : Tracker) : List Char → List Codon
  | [] => []
  | aa :: rest =>
    (dbValue db aa).getD (t aa % (dbValue db aa).length) []
      :: encodeSpec db (trackerIncr t aa) rest

/-! Basic lemmas about the association-list database. -/

theorem dbLookup_dbAppend (db : CodonDB) (a : Char) (c : Codon) (x : Char) :
    dbLookup (dbAppend db a c) x =
      if x = a then some (dbValue db a ++ [c]) else dbLookup db x := by
  induction db with
  | nil => by_cases hx : x = a <;> simp [dbAppend, dbLookup, dbValue, hx]
  | cons p rest ih =>
    obtain ⟨k, v⟩ := p
    by_cases hak : a = k
    · subst hak
      by_cases hx : x = a <;> simp [dbAppend, dbLookup, dbValue, hx]
    · by_cases hxk : x = k
      · subst hxk
        have hxa : ¬ x = a := fun hh => hak hh.symm
        simp [dbAppend, dbLookup, hak, hxa]
      · simp [dbAppend, dbLookup, dbValue, hak, hxk, ih]

theorem dbContains_iff (db : CodonDB) (x : Char) :
    dbContains db x = true ↔ ∃ v, dbLookup db x = some v := by
  simp [dbContains, Option.isSome_iff_exists]

theorem dbLookup_eq_some_value (db : CodonDB) (x : Char)
    (h : dbContains db x = true) : dbLookup db x = some (dbValue db x) := by
  obtain ⟨v, hv⟩ := (dbContains_iff db x).mp h
  simp [dbValue, hv]

theorem dbTouch_of_contains (db : CodonDB) (a : Char)
    (h : dbContains db a = true) : dbTouch db a = db := by
  simp [dbTouch, h]

theorem dbSize_dbAppend (db : CodonDB) (a : Char) (c : Codon) :
    dbSize (dbAppend db a c) = dbSize db + 1 := by
  induction db with
  | nil => simp [dbAppend, dbSize]
  | cons p rest ih =>
    obtain ⟨k, v⟩ := p
    by_cases hak : a = k
    · simp [dbAppend, hak, dbSize]
      omega
    · simp [dbAppend, hak, dbSize] at ih ⊢
      omega

/-! Lemmas about folding pairs into the database. -/

theorem buildList_nil (db : CodonDB) : buildList db [] = db := rfl

theorem buildList_cons (db : CodonDB) (p : Char × Codon)
    (rest : List (Char × Codon)) :
    buildList db (p :: rest) = buildList (dbAppend db p.1 p.2) rest := rfl

theorem codonsFor_nil (x : Char) : codonsFor [] x = [] := rfl

theorem codonsFor_cons (p : Char × Codon) (rest : List (Char × Codon)) (x : Char) :
    codonsFor (p :: rest) x =
      if p.1 = x then p.2 :: codonsFor rest x else codonsFor rest x := by
  by_cases h : p.1 = x
  · simp [codonsFor, List.filter, h]
  · have hb : (p.1 == x) = false := by simpa using h
    simp [codonsFor, List.filter, h, hb]

theorem dbLookup_buildList (pairs : List (Char × Codon)) (db : CodonDB) (x : Char) :
    dbLookup (buildList db pairs) x =
      if dbContains db x || pairs.any (fun p => p.1 == x) then
        some (dbValue db x ++ codonsFor pairs x)
      else none := by
  induction pairs generalizing db with
  | nil =>
    by_cases h : dbContains db x
    · simp [buildList_nil, codonsFor_nil, h, dbLookup_eq_some_value db x h]
    · simp only [buildList_nil, codonsFor_nil, List.any_nil, Bool.or_false]
      rw [if_neg]
      · by_contra hs
        rcases Option.ne_none_iff_exists'.mp hs with ⟨v, hv⟩
        exact h ((dbContains_iff db x).mpr ⟨v, hv⟩)
      · simp [h]
  | cons p rest ih =>
    obtain ⟨a, c⟩ := p
    rw [buildList_cons, ih, codonsFor_cons]
    by_cases hx : x = a
    · subst hx
      have hc : dbContains (dbAppend db x c) x = true := by
        apply (dbContains_iff _ _).mpr
        exact ⟨dbValue db x ++ [c], by simp [dbLookup_dbAppend]⟩
      have hv : dbValue (dbAppend db x c) x = dbValue db x ++ [c] := by
        simp [dbValue, dbLookup_dbAppend]
      simp [hc, hv]
    · have hc : dbContains (dbAppend db a c) x = dbContains db x := by
        simp [dbContains, dbLookup_dbAppend, hx]
      have hv : dbValue (dbAppend db a c) x = dbValue db x := by
        simp [dbValue, dbLookup_dbAppend, hx]
      have hax : ¬ a = x := fun hh => hx hh.symm
      have hbeq : (a == x) = false := by
        simpa using hax
      rw [hc, hv]
      simp only [List.any_cons, hbeq, Bool.false_or, hax, if_false, if_neg]

theorem dbSize_buildList (pairs : List (Char × Codon)) (db : CodonDB) :
    dbSize (buildList db pairs) = dbSize db + pairs.length := by
  induction pairs generalizing db with
  | nil => simp [buildList_nil]
  | cons p rest ih =>
    rw [buildList_cons, ih, dbSize_dbAppend]
    simp only [List.length_cons]
    omega

/-! Lemmas about the codon-sized walk `chunks3`. -/

theorem chunks3_nil : chunks3 [] = [] := by
  rw [chunks3]
  simp

theorem chunks3_of_ne_nil (l : List Char) (h : l ≠ []) :
    chunks3 l = l.take 3 :: chunks3 (l.drop 3) := by
  rw [chunks3]
  simp [h]

theorem chunks3_length (n : Nat) (l : List Char) (h : l.length = 3 * n) :
    (chunks3 l).length = n := by
  induction n generalizing l with
  | zero =>
    have : l = [] := List.length_eq_zero.mp (by omega)
    simp [this, chunks3_nil]
  | succ m ih =>
    have hne : l ≠ [] := by
      intro hl
      rw [hl] at h
      simp at h
    rw [chunks3_of_ne_nil l hne]
    have hdrop : (l.drop 3).length = 3 * m := by
      simp only [List.length_drop, h]
      omega
    simp [ih (l.drop 3) hdrop]

theorem chunks3_getElem? (n j : Nat) (l : List Char) (h : l.length = 3 * n)
    (hj : j < n) : (chunks3 l)[j]? = some ((l.drop (3 * j)).take 3) := by
  induction j generalizing l n with
  | zero =>
    have hne : l ≠ [] := by
      intro hl
      rw [hl] at h
      simp at h
      omega
    rw [chunks3_of_ne_nil l hne]
    simp
  | succ i ih =>
    have hne : l ≠ [] := by
      intro hl
      rw [hl] at h
      simp at h
      omega
    rw [chunks3_of_ne_nil l hne]
    have hdrop : (l.drop 3).length = 3 * (n - 1) := by
      simp only [List.length_drop, h]
      omega
    have hi : i < n - 1 := by omega
    simp only [List.getElem?_cons_succ]
    rw [ih (n - 1) (l.drop 3) hdrop hi, List.drop_drop]
    have h31 : 3 + 3 * i = 3 * (i + 1) := by omega
    rw [h31]

theorem chunks3_mem_length (n : Nat) (l : List Char) (h : l.length = 3 * n)
    (c : List Char) (hc : c ∈ chunks3 l) : c.length = 3 := by
  induction n generalizing l with
  | zero =>
    have : l = [] := List.length_eq_zero.mp (by omega)
    rw [this, chunks3_nil] at hc
    simp at hc
  | succ m ih =>
    have hne : l ≠ [] := by
      intro hl
      rw [hl] at h
      simp at h
    rw [chunks3_of_ne_nil l hne] at hc
    rcases List.mem_cons.mp hc with hhead | htail
    · rw [hhead]
      simp only [List.length_take, h]
      omega
    · have hdrop : (l.drop 3).length = 3 * m := by
        simp only [List.length_drop, h]
        omega
      exact ih (l.drop 3) hdrop htail

theorem chunks3_mem_subset (l : List Char) (c : List Char)
    (hc : c ∈ chunks3 l) : ∀ b ∈ c, b ∈ l := by
  induction l using chunks3.induct with
  | case1 => simp [chunks3_nil] at hc
  | case2 l hne ih =>
    rw [chunks3_of_ne_nil l hne] at hc
    rcases List.mem_cons.mp hc with hhead | htail
    · intro b hb
      rw [hhead] at hb
      exact List.take_subset 3 l hb
    · intro b hb
      exact List.drop_subset 3 l (ih htail b hb)

theorem chunks3_flatten (L : List (List Char))
    (h : ∀ c ∈ L, c.length = 3) : chunks3 L.flatten = L := by
  induction L with
  | nil => simp [chunks3_nil]
  | cons c rest ih =>
    have hc : c.length = 3 := h c (by simp)
    have hcne : c ≠ [] := by
      intro hh
      rw [hh] at hc
      simp at hc
    have hne : (c :: rest).flatten ≠ [] := by
      simp only [List.flatten_cons]
      intro hh
      exact hcne (List.append_eq_nil.mp hh).1
    rw [chunks3_of_ne_nil _ hne]
    simp only [List.flatten_cons]
    have htake : (c ++ rest.flatten).take 3 = c := by
      rw [← hc]
      exact List.take_left c rest.flatten
    have hdrop : (c ++ rest.flatten).drop 3 = rest.flatten := by
      rw [← hc]
      exact List.drop_left c rest.flatten
    rw [htake, hdrop, ih fun x hx => h x (by simp [hx])]

theorem flatten_length_of_all3 (L : List (List Char))
    (h : ∀ c ∈ L, c.length = 3) : L.flatten.length = 3 * L.length := by
  induction L with
  | nil => simp
  | cons c rest ih =>
    simp only [List.flatten_cons, List.length_append, List.length_cons]
    rw [h c (by simp), ih fun x hx => h x (by simp [hx])]
    omega

theorem getElem?_eq_getD (l : List Codon) (i : Nat) (d : Codon)
    (h : i < l.length) : l[i]? = some (l.getD i d) := by
  simp [List.getD, List.getElem?_eq_getElem h]

theorem getD_mem (l : List Codon) (i : Nat) (d : Codon)
    (h : i < l.length) : l.getD i d ∈ l :=
  List.getElem?_mem (getElem?_eq_getD l i d h)

/-! The Steps 3-4 builder loop, characterised as a fold over the
(amino acid, codon) pairs of the reference. -/

theorem buildGo_eq (dna aas : List Char) (n : Nat) (hlen : dna.length = 3 * n)
    (haas : n ≤ aas.length) :
    ∀ m j db, j + m = n →
      buildGo dna aas db (3 * j) =
        some (buildList db ((aas.zip (chunks3 dna)).drop j)) := by
  have hplen : (aas.zip (chunks3 dna)).length = n := by
    rw [List.length_zip, chunks3_length n dna hlen]
    exact min_eq_right haas
  intro m
  induction m with
  | zero =>
    intro j db hj
    rw [buildGo]
    have hnl : ¬ 3 * j < dna.length := by omega
    rw [dif_neg hnl]
    have hdrop : (aas.zip (chunks3 dna)).drop j = [] :=
      List.drop_eq_nil_of_le (by omega)
    rw [hdrop, buildList_nil]
  | succ m ih =>
    intro j db hj
    have hjn : j < n := by omega
    have hlt : 3 * j < dna.length := by omega
    have hja : j < aas.length := by omega
    have hjp : j < (aas.zip (chunks3 dna)).length := by omega
    rw [buildGo, dif_pos hlt]
    have hdiv : 3 * j / 3 = j := by omega
    rw [hdiv, List.getElem?_eq_getElem hja]
    have hchunk : (chunks3 dna)[j]? = some ((dna.drop (3 * j)).take 3) :=
      chunks3_getElem? n j dna hlen hjn
    have hpair : (aas.zip (chunks3 dna))[j]? =
        some (aas[j], (dna.drop (3 * j)).take 3) :=
      List.getElem?_zip_eq_some.mpr ⟨List.getElem?_eq_getElem hja, hchunk⟩
    have hgj : (aas.zip (chunks3 dna))[j] = (aas[j], (dna.drop (3 * j)).take 3) :=
      Option.some.inj ((List.getElem?_eq_getElem hjp).symm.trans hpair)
    rw [List.drop_eq_getElem_cons hjp, hgj, buildList_cons]
    show buildGo dna aas (dbAppend db aas[j] ((dna.drop (3 * j)).take 3))
        (3 * j + 3) = _
    have h3 : 3 * j + 3 = 3 * (j + 1) := by omega
    rw [h3]
    exact ih (j + 1) (dbAppend db aas[j] ((dna.drop (3 * j)).take 3)) (by omega)

theorem codonUsageRecorder_eq (dna aas : List Char) (n : Nat)
    (hlen : dna.length = 3 * n) (haas : n ≤ aas.length) :
    codonUsageRecorder dna aas =
      some (buildList [] (aas.zip (chunks3 dna))) := by
  have h := buildGo_eq dna aas n hlen haas n 0 [] (by omega)
  simpa [codonUsageRecorder] using h

theorem buildGo_none_iff (dna aas : List Char) :
    ∀ fuel j db, dna.length ≤ 3 * j + fuel →
      (buildGo dna aas db (3 * j) = none ↔
        3 * max j aas.length < dna.length) := by
  intro fuel
  induction fuel with
  | zero =>
    intro j db hle
    rw [buildGo]
    have hnl : ¬ 3 * j < dna.length := by omega
    rw [dif_neg hnl]
    constructor
    · intro h
      cases h
    · intro h
      exfalso
      omega
  | succ m ih =>
    intro j db hle
    by_cases hlt : 3 * j < dna.length
    · rw [buildGo, dif_pos hlt]
      have hdiv : 3 * j / 3 = j := by omega
      rw [hdiv]
      by_cases hja : j < aas.length
      · rw [List.getElem?_eq_getElem hja]
        show buildGo dna aas
            (dbAppend db aas[j] ((dna.drop (3 * j)).take 3)) (3 * j + 3) = none ↔ _
        have h3 : 3 * j + 3 = 3 * (j + 1) := by omega
        rw [h3, ih (j + 1) (dbAppend db aas[j] ((dna.drop (3 * j)).take 3)) (by omega)]
        constructor <;> intro h <;> omega
      · have hnone : aas[j]? = none := by
          apply List.getElem?_eq_none
          omega
        rw [hnone]
        show (none : Option CodonDB) = none ↔ _
        constructor
        · intro _
          omega
        · intro _
          rfl
    · rw [buildGo, dif_neg hlt]
      constructor
      · intro h
        cases h
      · intro h
        exfalso
        omega

theorem codonUsageRecorder_none_iff (dna aas : List Char) :
    codonUsageRecorder dna aas = none ↔ 3 * aas.length < dna.length := by
  have h := buildGo_none_iff dna aas dna.length 0 [] (by omega)
  simpa [codonUsageRecorder] using h

/-! The Step 7 reconstruction loop, characterised on a validated target. -/

theorem step7Go_eq_encodeSpec (db : CodonDB) (target : List Char)
    (hcont : ∀ a ∈ target, dbContains db a = true)
    (hne : ∀ a ∈ target, dbValue db a ≠ []) :
    ∀ t, step7Go db t target = (some (encodeSpec db t target), db) := by
  induction target with
  | nil => intro t; rfl
  | cons aa rest ih =>
    intro t
    have hcaa : dbContains db aa = true := hcont aa (by simp)
    have hlaa : dbValue db aa ≠ [] := hne aa (by simp)
    have hlen0 : ¬ (dbValue db aa).length = 0 := by
      intro h
      exact hlaa (List.length_eq_zero.mp h)
    have htouch : dbTouch db aa = db := dbTouch_of_contains db aa hcaa
    have ihr := ih (fun a ha => hcont a (by simp [ha]))
      (fun a ha => hne a (by simp [ha])) (trackerIncr t aa)
    simp only [step7Go, htouch, hlen0, if_false, ihr, encodeSpec]

theorem step7Go_snd (db : CodonDB) (target : List Char)
    (hcont : ∀ a ∈ target, dbContains db a = true) :
    ∀ t, (step7Go db t target).2 = db := by
  induction target with
  | nil => intro t; rfl
  | cons aa rest ih =>
    intro t
    have hcaa : dbContains db aa = true := hcont aa (by simp)
    have htouch : dbTouch db aa = db := dbTouch_of_contains db aa hcaa
    have ihr := ih (fun a ha => hcont a (by simp [ha])) (trackerIncr t aa)
    by_cases hlen0 : (dbValue db aa).length = 0
    · simp [step7Go, htouch, hlen0]
    · simp only [step7Go, htouch, hlen0, if_false]
      rcases hmatch : step7Go db (trackerIncr t aa) rest with ⟨o, db2⟩
      have : db2 = db := by
        have := ihr
        rw [hmatch] at this
        exact this
      cases o <;> simp [this]

theorem encodeSpec_length (db : CodonDB) (target : List Char) :
    ∀ t, (encodeSpec db t target).length = target.length := by
  induction target with
  | nil => intro t; rfl
  | cons aa rest ih =>
    intro t
    simp [encodeSpec, ih (trackerIncr t aa)]

theorem encodeSpec_getElem? (db : CodonDB) (target : List Char) :
    ∀ t j, j < target.length →
      ∃ a, target[j]? = some a ∧
        (encodeSpec db t target)[j]? =
          some ((dbValue db a).getD
            ((t a + List.count a (target.take j)) % (dbValue db a).length) []) := by
  induction target with
  | nil =>
    intro t j hj
    simp at hj
  | cons aa rest ih =>
    intro t j hj
    match j with
    | 0 =>
      refine ⟨aa, by simp, ?_⟩
      simp [encodeSpec]
    | j + 1 =>
      have hjr : j < rest.length := by
        simp at hj
        omega
      obtain ⟨a, ha, hval⟩ := ih (trackerIncr t aa) j hjr
      refine ⟨a, by simpa using ha, ?_⟩
      have hidx : trackerIncr t aa a + List.count a (rest.take j) =
          t a + List.count a ((aa :: rest).take (j + 1)) := by
        simp only [List.take_succ_cons, List.count_cons, trackerIncr]
        by_cases hcase : a = aa
        · have hb : (aa == a) = true := by simp [hcase]
          simp [hcase, hb]
          omega
        · have hb : (aa == a) = false := by
            simp
            intro hh
            exact hcase hh.symm
          simp [hcase, hb]
      simp only [encodeSpec, List.getElem?_cons_succ]
      rw [hval, hidx]

theorem encodeSpec_mem (db : CodonDB) (target : List Char)
    (hne : ∀ a ∈ target, dbValue db a ≠ []) :
    ∀ t c, c ∈ encodeSpec db t target → ∃ a, a ∈ target ∧ c ∈ dbValue db a := by
  induction target with
  | nil =>
    intro t c hc
    simp [encodeSpec] at hc
  | cons aa rest ih =>
    intro t c hc
    simp only [encodeSpec, List.mem_cons] at hc
    rcases hc with hhead | htail
    · refine ⟨aa, by simp, ?_⟩
      rw [hhead]
      apply getD_mem
      apply Nat.mod_lt
      have := hne aa (by simp)
      have hpos : 0 < (dbValue db aa).length := List.length_pos.mpr this
      omega
    · obtain ⟨a, ha, hmem⟩ := ih (fun a ha => hne a (by simp [ha]))
        (trackerIncr t aa) c htail
      exact ⟨a, by simp [ha], hmem⟩

theorem encodeSpec_take (db : CodonDB) (target : List Char) :
    ∀ t m, encodeSpec db t (target.take m) = (encodeSpec db t target).take m := by
  induction target with
  | nil =>
    intro t m
    simp [encodeSpec]
  | cons aa rest ih =>
    intro t m
    match m with
    | 0 => rfl
    | m + 1 =>
      simp only [List.take_succ_cons, encodeSpec]
      rw [ih (trackerIncr t aa) m]

/-! Bridging lemmas used by the claim theorems. -/

theorem dbLookup_mem (db : CodonDB) (a : Char) (cs : List Codon)
    (h : dbLookup db a = some cs) : (a, cs) ∈ db := by
  induction db with
  | nil => cases h
  | cons p rest ih =>
    obtain ⟨k, v⟩ := p
    simp only [dbLookup] at h
    by_cases hak : a = k
    · subst hak
      rw [if_pos rfl, Option.some.injEq] at h
      subst h
      exact List.mem_cons_self _ _
    · rw [if_neg hak] at h
      exact List.mem_cons_of_mem _ (ih h)

theorem dbWellFormed_spec (db : CodonDB) (hwf : dbWellFormed db = true)
    (a : Char) (cs : List Codon) (h : dbLookup db a = some cs) :
    cs ≠ [] ∧ ∀ c ∈ cs, c.length = 3 := by
  unfold dbWellFormed at hwf
  have hall := List.all_eq_true.mp hwf (a, cs) (dbLookup_mem db a cs h)
  simp only [Bool.and_eq_true, Bool.not_eq_true', List.all_eq_true, beq_iff_eq] at hall
  refine ⟨?_, hall.2⟩
  intro hnil
  rw [hnil] at hall
  simp at hall

theorem dbValue_ne_nil_of_wf (db : CodonDB) (hwf : dbWellFormed db = true)
    (a : Char) (hc : dbContains db a = true) : dbValue db a ≠ [] := by
  obtain ⟨v, hv⟩ := (dbContains_iff db a).mp hc
  have := (dbWellFormed_spec db hwf a v hv).1
  simpa [dbValue, hv] using this

theorem cyclicEncoder_ok (db : CodonDB) (target : List Char)
    (hall : target.all (fun aa => dbContains db aa) = true)
    (hne : ∀ a ∈ target, dbValue db a ≠ []) :
    cyclicEncoder db target = (.ok (encodeSpec db tracker0 target), db) := by
  have hcont : ∀ a ∈ target, dbContains db a = true := fun a ha =>
    List.all_eq_true.mp hall a ha
  unfold cyclicEncoder
  rw [hall]
  rw [step7Go_eq_encodeSpec db target hcont hne tracker0]
  simp

theorem cyclicEncoder_snd (db : CodonDB) (target : List Char) :
    (cyclicEncoder db target).2 = db := by
  unfold cyclicEncoder
  by_cases hall : target.all (fun aa => dbContains db aa) = true
  · rw [hall]
    have hcont : ∀ a ∈ target, dbContains db a = true := fun a ha =>
      List.all_eq_true.mp hall a ha
    have h2 := step7Go_snd db target hcont tracker0
    rcases hm : step7Go db tracker0 target with ⟨o, db2⟩
    rw [hm] at h2
    cases o <;> simp [h2]
  · have hfalse : target.all (fun aa => dbContains db aa) = false :=
      Bool.not_eq_true _ ▸ Bool.of_not_eq_true hall
    rw [hfalse]
    simp

theorem codonsFor_ne_nil (pairs : List (Char × Codon)) (x : Char)
    (h : pairs.any (fun p => p.1 == x) = true) : codonsFor pairs x ≠ [] := by
  induction pairs with
  | nil => simp at h
  | cons p rest ih =>
    rw [codonsFor_cons]
    by_cases hp : p.1 = x
    · simp [hp]
    · have hb : (p.1 == x) = false := by simpa using hp
      simp only [List.any_cons, hb, Bool.false_or] at h
      simp [hp, ih h]

theorem mem_codonsFor (pairs : List (Char × Codon)) (x : Char) (c : Codon)
    (h : c ∈ codonsFor pairs x) : ∃ p, p ∈ pairs ∧ p.1 = x ∧ p.2 = c := by
  unfold codonsFor at h
  obtain ⟨p, hpf, hpc⟩ := List.mem_map.mp h
  have hsplit := List.mem_filter.mp hpf
  exact ⟨p, hsplit.1, by simpa using hsplit.2, hpc⟩

theorem zip_map_fst (l : List (List Char)) (f : List Char → Char)
    (p : Char × Codon) (h : p ∈ (l.map f).zip l) : p.1 = f p.2 ∧ p.2 ∈ l := by
  induction l with
  | nil => simp at h
  | cons c rest ih =>
    simp only [List.map_cons, List.zip_cons_cons, List.mem_cons] at h
    rcases h with hh | ht
    · rw [hh]
      exact ⟨rfl, by simp⟩
    · obtain ⟨h1, h2⟩ := ih ht
      exact ⟨h1, by simp [h2]⟩

theorem recorder_lookup (dna aas : List Char) (x : Char) :
    dbLookup (buildList [] (aas.zip (chunks3 dna))) x =
      if (aas.zip (chunks3 dna)).any (fun p => p.1 == x) = true then
        some (codonsFor (aas.zip (chunks3 dna)) x)
      else none := by
  rw [dbLookup_buildList]
  simp only [dbContains, dbLookup, dbValue, Option.isSome_none, Bool.false_or,
    Option.getD_none, List.nil_append]

/-! The claims. -/

/-- C1: for every codon-usage mapping (well-formed per the data model:
non-empty lists of 3-character codons) and every target whose symbols are
all keys of the mapping, the CyclicEncoder succeeds with one codon per
target position, the codon at position j being
mapping[a][count of a in target[0..j-1] mod len(mapping[a])] for
a = target[j], and the concatenated output has length 3 times the
target's length. -/
theorem claim_c1 (db : CodonDB) (target : List Char)
    (hwf : dbWellFormed db = true)
    (hall : target.all (fun aa => dbContains db aa) = true) :
    ∃ out, (cyclicEncoder db target).1 = .ok out ∧
      out.length = target.length ∧
      (∀ j, j < target.length → ∃ a, target[j]? = some a ∧
        out[j]? =
          (dbValue db a)[List.count a (target.take j) % (dbValue db a).length]?) ∧
      out.flatten.length = 3 * target.length := by
  have hcont : ∀ a ∈ target, dbContains db a = true := fun a ha =>
    List.all_eq_true.mp hall a ha
  have hne : ∀ a ∈ target, dbValue db a ≠ [] := fun a ha =>
    dbValue_ne_nil_of_wf db hwf a (hcont a ha)
  refine ⟨encodeSpec db tracker0 target, ?_,
    encodeSpec_length db target tracker0, ?_, ?_⟩
  · rw [cyclicEncoder_ok db target hall hne]
  · intro j hj
    obtain ⟨a, ha, hval⟩ := encodeSpec_getElem? db target tracker0 j hj
    refine ⟨a, ha, ?_⟩
    have hmem : a ∈ target := List.getElem?_mem ha
    have hpos : 0 < (dbValue db a).length := List.length_pos.mpr (hne a hmem)
    have hidx : List.count a (target.take j) % (dbValue db a).length <
        (dbValue db a).length := Nat.mod_lt _ hpos
    simp only [tracker0, Nat.zero_add] at hval
    rw [hval, getElem?_eq_getD (dbValue db a)
      (List.count a (target.take j) % (dbValue db a).length) [] hidx]
  · have hlen3 : ∀ c ∈ encodeSpec db tracker0 target, c.length = 3 := by
      intro c hc
      obtain ⟨a, ha, hmem⟩ := encodeSpec_mem db target hne tracker0 c hc
      have hlook := dbLookup_eq_some_value db a (hcont a ha)
      exact (dbWellFormed_spec db hwf a (dbValue db a) hlook).2 c hmem
    rw [flatten_length_of_all3 _ hlen3, encodeSpec_length db target tracker0]

/-- Witness for C1 at the spec's cyclic wrap-around example:
mapping['A'] = [GCT, GCC] and target AAA. -/
theorem claim_c1_witness :
    ∃ out, (cyclicEncoder [('A', [['G','C','T'], ['G','C','C']])]
        ['A','A','A']).1 = .ok out ∧
      out.length = (['A','A','A'] : List Char).length ∧
      (∀ j, j < (['A','A','A'] : List Char).length → ∃ a,
        (['A','A','A'] : List Char)[j]? = some a ∧
        out[j]? = (dbValue [('A', [['G','C','T'], ['G','C','C']])] a)[
          List.count a ((['A','A','A'] : List Char).take j) %
            (dbValue [('A', [['G','C','T'], ['G','C','C']])] a).length]?) ∧
      out.flatten.length = 3 * (['A','A','A'] : List Char).length :=
  claim_c1 [('A', [['G','C','T'], ['G','C','C']])] ['A','A','A']
    (by decide) (by decide)

/-- C10: for every well-formed mapping and valid target, the encoder's
output on a prefix of the target is the corresponding prefix of its
output on the full target, both as codon lists and as concatenated
nucleotide sequences. -/
theorem claim_c10 (db : CodonDB) (target : List Char) (m : Nat)
    (hwf : dbWellFormed db = true)
    (hall : target.all (fun aa => dbContains db aa) = true) :
    ∃ out outp, (cyclicEncoder db target).1 = .ok out ∧
      (cyclicEncoder db (target.take m)).1 = .ok outp ∧
      outp = out.take m ∧
      outp.flatten ++ (out.drop m).flatten = out.flatten := by
  have hcont : ∀ a ∈ target, dbContains db a = true := fun a ha =>
    List.all_eq_true.mp hall a ha
  have hne : ∀ a ∈ target, dbValue db a ≠ [] := fun a ha =>
    dbValue_ne_nil_of_wf db hwf a (hcont a ha)
  have hallp : (target.take m).all (fun aa => dbContains db aa) = true := by
    apply List.all_eq_true.mpr
    intro a ha
    exact hcont a (List.take_subset m target ha)
  have hnep : ∀ a ∈ target.take m, dbValue db a ≠ [] := fun a ha =>
    hne a (List.take_subset m target ha)
  refine ⟨encodeSpec db tracker0 target, encodeSpec db tracker0 (target.take m),
    ?_, ?_, ?_, ?_⟩
  · rw [cyclicEncoder_ok db target hall hne]
  · rw [cyclicEncoder_ok db (target.take m) hallp hnep]
  · exact encodeSpec_take db target tracker0 m
  · rw [encodeSpec_take db target tracker0 m, ← List.flatten_append,
      List.take_append_drop]

/-- Witness for C10 at the wrap-around example, prefix length 2. -/
theorem claim_c10_witness :
    ∃ out outp, (cyclicEncoder [('A', [['G','C','T'], ['G','C','C']])]
        ['A','A','A']).1 = .ok out ∧
      (cyclicEncoder [('A', [['G','C','T'], ['G','C','C']])]
        ((['A','A','A'] : List Char).take 2)).1 = .ok outp ∧
      outp = out.take 2 ∧
      outp.flatten ++ (out.drop 2).flatten = out.flatten :=
  claim_c10 [('A', [['G','C','T'], ['G','C','C']])] ['A','A','A'] 2
    (by decide) (by decide)

/-- C2 as stated is false on the code: on a mapping lacking the key W and
the target W, the encoder does fail with the unknown-amino-acid error and
produces no output, but the error message it carries (the notebook's Step
6 message) does not mention the offending symbol W at all, so the failure
does not report the offending symbol. -/
theorem claim_c2_counterexample :
    dbContains [('A', [['G','C','T']])] 'W' = false ∧
    (cyclicEncoder [('A', [['G','C','T']])] ['W']).1 =
      .error (.unknownAminoAcid step6Message) ∧
    ¬ ('W' ∈ step6Message.toList) := by
  refine ⟨by decide, rfl, by decide⟩

/-- C2 (amended): for every mapping and every target containing a symbol
that is not a key of the mapping, the CyclicEncoder (Step 6 validation
followed by Step 7) fails with the generic unknown-amino-acid error — a
fixed message that does not identify the offending symbol — and no
output is produced; the mapping is left unchanged. -/
theorem claim_c2 (db : CodonDB) (target : List Char) (a : Char)
    (ha : a ∈ target) (hmiss : dbLookup db a = none) :
    cyclicEncoder db target = (.error (.unknownAminoAcid step6Message), db) := by
  have hbad : target.all (fun aa => dbContains db aa) = false := by
    cases hb : target.all (fun aa => dbContains db aa) with
    | false => rfl
    | true =>
      exfalso
      have hc := List.all_eq_true.mp hb a ha
      rw [dbContains, hmiss] at hc
      cases hc
  unfold cyclicEncoder
  rw [hbad]
  simp

/-- Witness for the amended C2: the mapping lacking W with target W. -/
theorem claim_c2_witness :
    cyclicEncoder [('A', [['G','C','T']])] ['W'] =
      (.error (.unknownAminoAcid step6Message), [('A', [['G','C','T']])]) :=
  claim_c2 [('A', [['G','C','T']])] ['W'] 'W' (by decide) (by decide)

/-- C5 as stated is false on the code: the Steps 3-4 builder has no
MismatchError check. On the nucleotide sequence ATG with the two-symbol
amino-acid sequence MA (2 ≠ 3 / 3 = 1) the builder succeeds, recording
the one codon and silently ignoring the extra amino acid. -/
theorem claim_c5_counterexample :
    (['M','A'] : List Char).length ≠ (['A','T','G'] : List Char).length / 3 ∧
    codonUsageRecorder ['A','T','G'] ['M','A'] =
      some [('M', [['A','T','G']])] := by
  refine ⟨by decide, by simp [codonUsageRecorder, buildGo, dbAppend]⟩

/-- C5 (amended): the CodonUsageRecorder fails — by the uncaught index
error of `protein1_aa[i // 3]`, modelled as `none`, not by any
MismatchError — exactly when the amino-acid sequence supplies fewer than
the needed symbols, i.e. when 3 times its length is less than the
nucleotide sequence's length; when the amino-acid sequence is at least
that long it succeeds, ignoring any surplus symbols. -/
theorem claim_c5 (dna aas : List Char) :
    codonUsageRecorder dna aas = none ↔ 3 * aas.length < dna.length :=
  codonUsageRecorder_none_iff dna aas

/-- C3: the recorder built from a reference of length 3n and its n-symbol
amino-acid sequence succeeds; the j-th reference codon is the slice
dna[3j .. 3j+3]; and each key's stored list is exactly the subsequence of
reference codons paired with that amino acid, in arrival order with
duplicates retained (a key is present precisely when that subsequence is
non-empty). -/
theorem claim_c3 (dna aas : List Char) (n : Nat)
    (hlen : dna.length = 3 * n) (haas : aas.length = n) :
    ∃ db, codonUsageRecorder dna aas = some db ∧
      (∀ j, j < n → (chunks3 dna)[j]? = some ((dna.drop (3 * j)).take 3)) ∧
      ∀ a, dbLookup db a =
        (if (codonsFor (aas.zip (chunks3 dna)) a).isEmpty then none
         else some (codonsFor (aas.zip (chunks3 dna)) a)) := by
  refine ⟨buildList [] (aas.zip (chunks3 dna)),
    codonUsageRecorder_eq dna aas n hlen (le_of_eq haas.symm),
    fun j hj => chunks3_getElem? n j dna hlen hj, ?_⟩
  intro a
  rw [recorder_lookup]
  by_cases hany : (aas.zip (chunks3 dna)).any (fun p => p.1 == a) = true
  · rw [if_pos hany]
    have hne := codonsFor_ne_nil (aas.zip (chunks3 dna)) a hany
    have hie : (codonsFor (aas.zip (chunks3 dna)) a).isEmpty = false := by
      cases hcase : (codonsFor (aas.zip (chunks3 dna)) a).isEmpty
      · rfl
      · exact absurd (List.isEmpty_iff.mp hcase) hne
    rw [hie]
    simp
  · rw [if_neg hany]
    have hfalse : (aas.zip (chunks3 dna)).any (fun p => p.1 == a) = false :=
      Bool.eq_false_iff.mpr hany
    have hnone := List.any_eq_false.mp hfalse
    have hfil : (aas.zip (chunks3 dna)).filter (fun p => p.1 == a) = [] :=
      List.filter_eq_nil_iff.mpr hnone
    have hnil : codonsFor (aas.zip (chunks3 dna)) a = [] := by
      unfold codonsFor
      rw [hfil]
      rfl
    rw [hnil]
    simp

/-- Witness for C3 at the spec's order-preservation example
ATGGCTGCCTAA with amino acids MAA*. -/
theorem claim_c3_witness :
    ∃ db, codonUsageRecorder
        ['A','T','G','G','C','T','G','C','C','T','A','A'] ['M','A','A','*'] =
        some db ∧
      (∀ j, j < 4 →
        (chunks3 ['A','T','G','G','C','T','G','C','C','T','A','A'])[j]? =
          some ((['A','T','G','G','C','T','G','C','C','T','A','A'] : List Char).drop
            (3 * j) |>.take 3)) ∧
      ∀ a, dbLookup db a =
        (if (codonsFor ((['M','A','A','*'] : List Char).zip
            (chunks3 ['A','T','G','G','C','T','G','C','C','T','A','A'])) a).isEmpty
         then none
         else some (codonsFor ((['M','A','A','*'] : List Char).zip
            (chunks3 ['A','T','G','G','C','T','G','C','C','T','A','A'])) a)) :=
  claim_c3 ['A','T','G','G','C','T','G','C','C','T','A','A'] ['M','A','A','*'] 4
    (by decide) (by decide)

/-- C4: for a mapping built by the recorder from an aligned reference,
every key's list is non-empty, an amino acid absent from the reference
amino-acid sequence is not a key at all, and no CyclicEncoder call — on
any target whatsoever — modifies the mapping. -/
theorem claim_c4 (dna aas : List Char) (n : Nat) (db : CodonDB)
    (hlen : dna.length = 3 * n) (haas : aas.length = n)
    (hdb : codonUsageRecorder dna aas = some db) :
    (∀ a cs, dbLookup db a = some cs → cs ≠ []) ∧
    (∀ a, a ∉ aas → dbLookup db a = none) ∧
    (∀ target, (cyclicEncoder db target).2 = db) := by
  rw [codonUsageRecorder_eq dna aas n hlen (le_of_eq haas.symm)] at hdb
  obtain rfl := Option.some.inj hdb
  refine ⟨?_, ?_, fun target => cyclicEncoder_snd _ target⟩
  · intro a cs hcs
    rw [recorder_lookup] at hcs
    by_cases hany : (aas.zip (chunks3 dna)).any (fun p => p.1 == a) = true
    · rw [if_pos hany] at hcs
      obtain rfl := Option.some.inj hcs
      exact codonsFor_ne_nil _ a hany
    · rw [if_neg hany] at hcs
      cases hcs
  · intro a hna
    rw [recorder_lookup]
    rw [if_neg]
    intro hany
    obtain ⟨p, hp, hpa⟩ := List.any_eq_true.mp hany
    have hmem : p.1 ∈ aas := by
      obtain ⟨x, y⟩ := p
      exact (List.of_mem_zip hp).1
    rw [beq_iff_eq] at hpa
    exact hna (hpa ▸ hmem)

/-- Witness for C4 at the ATGGCTGCCTAA reference. -/
theorem claim_c4_witness :
    (∀ a cs, dbLookup [('M', [['A','T','G']]),
        ('A', [['G','C','T'], ['G','C','C']]), ('*', [['T','A','A']])] a =
        some cs → cs ≠ []) ∧
    (∀ a, a ∉ (['M','A','A','*'] : List Char) →
      dbLookup [('M', [['A','T','G']]),
        ('A', [['G','C','T'], ['G','C','C']]), ('*', [['T','A','A']])] a = none) ∧
    (∀ target, (cyclicEncoder [('M', [['A','T','G']]),
        ('A', [['G','C','T'], ['G','C','C']]), ('*', [['T','A','A']])] target).2 =
      [('M', [['A','T','G']]),
        ('A', [['G','C','T'], ['G','C','C']]), ('*', [['T','A','A']])]) :=
  claim_c4 ['A','T','G','G','C','T','G','C','C','T','A','A'] ['M','A','A','*'] 4
    [('M', [['A','T','G']]), ('A', [['G','C','T'], ['G','C','C']]),
      ('*', [['T','A','A']])]
    (by decide) (by decide) (by simp [codonUsageRecorder, buildGo, dbAppend])

/-- C6: the Translator (modelled from the spec, its implementation being
the external Biopython call) rejects every sequence whose length is not a
multiple of 3 or that contains a character outside A,T,G,C with
InvalidSequenceError. -/
theorem claim_c6 (seq : List Char)
    (hbad : ¬ (seq.length % 3 = 0) ∨ ∃ b ∈ seq, validBase b = false) :
    seqTranslate seq = .error .invalidSequence := by
  have hneg : ¬ ((seq.all validBase && seq.length % 3 == 0) = true) := by
    intro hc
    rw [Bool.and_eq_true] at hc
    rcases hbad with h | ⟨b, hb, hvb⟩
    · exact h (by simpa using hc.2)
    · have hall := List.all_eq_true.mp hc.1 b hb
      rw [hvb] at hall
      cases hall
  unfold seqTranslate
  rw [if_neg hneg]

/-- Witness for C6: a single-character sequence (length 1). -/
theorem claim_c6_witness :
    seqTranslate ['A'] = .error .invalidSequence :=
  claim_c6 ['A'] (Or.inl (by decide))

/-- C7: on a sequence over A,T,G,C of length 3n the Translator succeeds
with exactly n symbols, the j-th being the standard-genetic-code image of
the j-th consecutive non-overlapping triplet. -/
theorem claim_c7 (seq : List Char) (n : Nat) (hlen : seq.length = 3 * n)
    (hvalid : seq.all validBase = true) :
    ∃ out, seqTranslate seq = .ok out ∧ out.length = n ∧
      ∀ j, j < n → out[j]? = some (geneticCode ((seq.drop (3 * j)).take 3)) := by
  have hmod : seq.length % 3 = 0 := by omega
  have hcond : (seq.all validBase && seq.length % 3 == 0) = true := by
    rw [Bool.and_eq_true]
    exact ⟨hvalid, by simpa using hmod⟩
  refine ⟨(chunks3 seq).map geneticCode, ?_, ?_, ?_⟩
  · unfold seqTranslate
    rw [if_pos hcond]
  · rw [List.length_map, chunks3_length n seq hlen]
  · intro j hj
    rw [List.getElem?_map, chunks3_getElem? n j seq hlen hj]
    rfl

/-- Witness for C7 at the codon ATG (n = 1). -/
theorem claim_c7_witness :
    ∃ out, seqTranslate ['A','T','G'] = .ok out ∧ out.length = 1 ∧
      ∀ j, j < 1 → out[j]? =
        some (geneticCode (((['A','T','G'] : List Char).drop (3 * j)).take 3)) :=
  claim_c7 ['A','T','G'] 1 (by decide) (by decide)

/-- C8: for a valid reference of length 3n the Translator yields exactly
n symbols and the recorder's mapping holds exactly n codon entries in
total across all keys. -/
theorem claim_c8 (seq : List Char) (n : Nat) (hlen : seq.length = 3 * n)
    (hvalid : seq.all validBase = true) :
    ∃ aas db, seqTranslate seq = .ok aas ∧ aas.length = n ∧
      codonUsageRecorder seq aas = some db ∧ dbSize db = n := by
  have hmod : seq.length % 3 = 0 := by omega
  have hcond : (seq.all validBase && seq.length % 3 == 0) = true := by
    rw [Bool.and_eq_true]
    exact ⟨hvalid, by simpa using hmod⟩
  have haaslen : ((chunks3 seq).map geneticCode).length = n := by
    rw [List.length_map, chunks3_length n seq hlen]
  refine ⟨(chunks3 seq).map geneticCode,
    buildList [] (((chunks3 seq).map geneticCode).zip (chunks3 seq)),
    ?_, haaslen, ?_, ?_⟩
  · unfold seqTranslate
    rw [if_pos hcond]
  · exact codonUsageRecorder_eq seq ((chunks3 seq).map geneticCode) n hlen
      (le_of_eq haaslen.symm)
  · rw [dbSize_buildList, List.length_zip, haaslen,
      chunks3_length n seq hlen]
    simp [dbSize]

/-- Witness for C8 at ATGGCTGCCTAA (n = 4). -/
theorem claim_c8_witness :
    ∃ aas db, seqTranslate
        ['A','T','G','G','C','T','G','C','C','T','A','A'] = .ok aas ∧
      aas.length = 4 ∧
      codonUsageRecorder ['A','T','G','G','C','T','G','C','C','T','A','A'] aas =
        some db ∧
      dbSize db = 4 :=
  claim_c8 ['A','T','G','G','C','T','G','C','C','T','A','A'] 4
    (by decide) (by decide)

/-- C9: encode-then-translate round trip. For a valid reference, the
mapping built by the recorder from the reference and its Translator
output, and any target whose symbols are all keys, translating the
encoder's concatenated output gives back exactly the target: every
selected codon encodes the amino acid it was chosen for. -/
theorem claim_c9 (seq aas : List Char) (n : Nat) (db : CodonDB)
    (target : List Char)
    (hlen : seq.length = 3 * n) (hvalid : seq.all validBase = true)
    (htr : seqTranslate seq = .ok aas)
    (hdb : codonUsageRecorder seq aas = some db)
    (hall : target.all (fun aa => dbContains db aa) = true) :
    ∃ out, (cyclicEncoder db target).1 = .ok out ∧
      seqTranslate out.flatten = .ok target := by
  have hmod : seq.length % 3 = 0 := by omega
  have hcond : (seq.all validBase && seq.length % 3 == 0) = true := by
    rw [Bool.and_eq_true]
    exact ⟨hvalid, by simpa using hmod⟩
  have haas : aas = (chunks3 seq).map geneticCode := by
    unfold seqTranslate at htr
    rw [if_pos hcond] at htr
    exact (Except.ok.inj htr).symm
  subst haas
  have haaslen : ((chunks3 seq).map geneticCode).length = n := by
    rw [List.length_map, chunks3_length n seq hlen]
  rw [codonUsageRecorder_eq seq _ n hlen (le_of_eq haaslen.symm)] at hdb
  obtain rfl := Option.some.inj hdb
  set pairs := ((chunks3 seq).map geneticCode).zip (chunks3 seq) with hpairs
  have hchar : ∀ a cs, dbLookup (buildList [] pairs) a = some cs →
      ∀ c ∈ cs, geneticCode c = a ∧ c ∈ chunks3 seq := by
    intro a cs hcs c hc
    rw [recorder_lookup] at hcs
    by_cases hany : pairs.any (fun p => p.1 == a) = true
    · rw [if_pos hany] at hcs
      obtain rfl := Option.some.inj hcs
      obtain ⟨p, hp, hp1, hp2⟩ := mem_codonsFor pairs a c hc
      obtain ⟨hfst, hsnd⟩ := zip_map_fst (chunks3 seq) geneticCode p (hpairs ▸ hp)
      constructor
      · rw [← hp2, ← hfst, hp1]
      · rw [← hp2]
        exact hsnd
    · rw [if_neg hany] at hcs
      cases hcs
  have hcont : ∀ a ∈ target, dbContains (buildList [] pairs) a = true :=
    fun a ha => List.all_eq_true.mp hall a ha
  have hne : ∀ a ∈ target, dbValue (buildList [] pairs) a ≠ [] := by
    intro a ha
    obtain ⟨v, hv⟩ := (dbContains_iff _ a).mp (hcont a ha)
    have hv2 := hv
    rw [recorder_lookup] at hv2
    by_cases hany : pairs.any (fun p => p.1 == a) = true
    · rw [if_pos hany] at hv2
      obtain rfl := Option.some.inj hv2
      simp only [dbValue, hv, Option.getD_some]
      exact codonsFor_ne_nil pairs a hany
    · rw [if_neg hany] at hv2
      cases hv2
  set out := encodeSpec (buildList [] pairs) tracker0 target with hout
  refine ⟨out, ?_, ?_⟩
  · rw [cyclicEncoder_ok _ target hall hne]
  · have houtchunks : ∀ c ∈ out, c ∈ chunks3 seq := by
      intro c hc
      obtain ⟨a, ha, hmem⟩ := encodeSpec_mem _ target hne tracker0 c (hout ▸ hc)
      have hlook := dbLookup_eq_some_value _ a (hcont a ha)
      exact (hchar a _ hlook c hmem).2
    have hout3 : ∀ c ∈ out, c.length = 3 := fun c hc =>
      chunks3_mem_length n seq hlen c (houtchunks c hc)
    have houtvalid : out.flatten.all validBase = true := by
      apply List.all_eq_true.mpr
      intro b hb
      obtain ⟨c, hcl, hbc⟩ := List.mem_flatten.mp hb
      exact List.all_eq_true.mp hvalid b
        (chunks3_mem_subset seq c (houtchunks c hcl) b hbc)
    have hflatlen : out.flatten.length = 3 * out.length :=
      flatten_length_of_all3 _ hout3
    have hcond2 :
        (out.flatten.all validBase && out.flatten.length % 3 == 0) = true := by
      rw [Bool.and_eq_true]
      refine ⟨houtvalid, ?_⟩
      have hz : out.flatten.length % 3 = 0 := by
        rw [hflatlen]
        omega
      simpa using hz
    have hmap : List.map geneticCode out = target := by
      apply List.ext_getElem?
      intro j
      by_cases hj : j < target.length
      · rw [List.getElem?_map]
        obtain ⟨a, ha, hval⟩ := encodeSpec_getElem? _ target tracker0 j hj
        simp only [tracker0, Nat.zero_add] at hval
        rw [hout, hval, ha]
        have hmem : a ∈ target := List.getElem?_mem ha
        have hpos : 0 < (dbValue (buildList [] pairs) a).length :=
          List.length_pos.mpr (hne a hmem)
        have hidx : List.count a (target.take j) %
            (dbValue (buildList [] pairs) a).length <
            (dbValue (buildList [] pairs) a).length := Nat.mod_lt _ hpos
        have helem := getD_mem (dbValue (buildList [] pairs) a)
          (List.count a (target.take j) %
            (dbValue (buildList [] pairs) a).length) [] hidx
        have hlook := dbLookup_eq_some_value _ a (hcont a hmem)
        have hgc := (hchar a _ hlook _ helem).1
        simp only [Option.map_some']
        rw [hgc]
      · have h1 : (List.map geneticCode out)[j]? = none := by
          apply List.getElem?_eq_none
          rw [List.length_map, hout, encodeSpec_length]
          omega
        have h2 : target[j]? = none := List.getElem?_eq_none (by omega)
        rw [h1, h2]
    unfold seqTranslate
    rw [if_pos hcond2, chunks3_flatten out hout3, hmap]

set_option maxHeartbeats 1000000 in
/-- Witness for C9: reference ATGGCTGCCTAA, target AAA (wrap-around). -/
theorem claim_c9_witness :
    ∃ out, (cyclicEncoder [('M', [['A','T','G']]),
        ('A', [['G','C','T'], ['G','C','C']]), ('*', [['T','A','A']])]
        ['A','A','A']).1 = .ok out ∧
      seqTranslate out.flatten = .ok ['A','A','A'] :=
  claim_c9 ['A','T','G','G','C','T','G','C','C','T','A','A'] ['M','A','A','*'] 4
    [('M', [['A','T','G']]), ('A', [['G','C','T'], ['G','C','C']]),
      ('*', [['T','A','A']])]
    ['A','A','A'] (by decide) (by decide)
    (by
      have hc : chunks3 ['A','T','G','G','C','T','G','C','C','T','A','A'] =
          [['A','T','G'],['G','C','T'],['G','C','C'],['T','A','A']] := by
        simp [chunks3]
      unfold seqTranslate
      rw [if_pos (by decide), hc]
      rfl)
    (by simp [codonUsageRecorder, buildGo, dbAppend]) (by decide)
